import Mathlib

/-!
Verification of the editing core of the `zack` modal terminal text editor.

The buffer content (a `ropey::Rope` in the source) is modelled as the list of
its Unicode scalar values (`List Char`); ropey's line-oriented queries
(`len_lines`, `line`, `line_to_char`, `insert`, `remove`) are given their
documented semantics on that list: lines are separated by `'\n'`, every line
except possibly the last carries its terminating `'\n'`, a trailing `'\n'`
produces a final empty line, and an empty buffer still has one (empty) line.
Event handlers are modelled as pure functions from their inputs to
(new state, emitted follow-up events), mirroring the Rust methods, which
mutate `self` in place and return a `Vec<AppEvent>` of follow-ups.
-/

namespace Zack

/-- `types/position.rs`: zero-based (line, column) location in a buffer. -/
structure Position where
  line : Nat
  col : Nat
deriving DecidableEq

/-- `app/cursor.rs`: events that can trigger cursor movement or repositioning. -/
inductive CursorEvent where
  | moveLeft
  | moveRight
  | moveUp
  | moveDown
  | moveToLineStart
  | moveToLineEnd
  | setPosition (line : Nat) (col : Nat)
  | setLinePosition (line : Nat)
  | setColPosition (col : Nat)
deriving DecidableEq

/-- `app/modes/normal.rs` constructs `EditorMode::Insert { append: bool }`, and the
spec's mode state machine is `{Normal, Insert{append: bool}, Visual}`; the `append`
flag distinguishes entry via `i` from entry via `a`.  (The enum declaration in
`app/modes/mod.rs` in this snapshot is a stale field-less duplicate that does not
match the handler cited by the claims; the handler's usage is embedded.) -/
inductive EditorMode where
  | insert (append : Bool)
  | normal
  | visual
deriving DecidableEq

/-- `ui/components`: the UI component that currently receives raw key input. -/
inductive FocusableComponent where
  | editor
  | filenamePrompt
deriving DecidableEq

/-- Filesystem paths (`std::path::PathBuf`) are opaque to the editing core; only
equality of paths matters to the claims. -/
abbrev PathBuf := String

/-- `app/file.rs`: events related to file operations. -/
inductive FileEvent where
  | save
  | saveAs (path : PathBuf)
deriving DecidableEq

/-- `app/buffer.rs`: high-level buffer modification events. -/
inductive BufferEvent where
  | insertChar (char : Char) (position : Position)
  | deleteChar (position : Position)
  | insertNewline (position : Position)
deriving DecidableEq

/-- `event/app_events.rs`: top-level application events. -/
inductive AppEvent where
  | buffer (e : BufferEvent)
  | cursor (e : CursorEvent)
  | file (e : FileEvent)
  | changeFocus (c : FocusableComponent)
  | changeToMode (m : EditorMode)
  | quit
deriving DecidableEq

/-- Key codes from `crossterm` that the mode handlers distinguish; `other` stands
for every remaining crossterm key code, all of which fall into the handlers'
catch-all arm. -/
inductive KeyCode where
  | char (c : Char)
  | esc
  | left
  | right
  | up
  | down
  | backspace
  | enter
  | other
deriving DecidableEq

/-- A raw key event: its code plus whether the CONTROL modifier is held
(the only modifier the source ever inspects). -/
structure KeyEvent where
  code : KeyCode
  ctrl : Bool
deriving DecidableEq

/-! ### The rope model

`ropey::Rope` queries, given their documented semantics on the list of chars. -/

/-- Number of `'\n'` separators in the text. -/
def countNewlines (s : List Char) : Nat :=
  (s.filter (fun c => c = '\n')).length

/-- `Rope::len_lines`: one more than the number of newline separators; an empty
buffer still reports one line. -/
def lenLines (s : List Char) : Nat :=
  countNewlines s + 1

/-- The first line of the text, including its terminating `'\n'` when present. -/
def takeLine : List Char → List Char
  | [] => []
  | c :: rest => if c = '\n' then ['\n'] else c :: takeLine rest

/-- `Rope::line n`: the chars of line `n`, including its terminating `'\n'` when
present.  (ropey panics for `n ≥ len_lines`; the model returns `[]` there, and
every claim only evaluates it in bounds.) -/
def lineChars : List Char → Nat → List Char
  | s, 0 => takeLine s
  | [], _ + 1 => []
  | c :: rest, n + 1 => if c = '\n' then lineChars rest n else lineChars rest (n + 1)

/-- `Rope::line_to_char n`: the char offset at which line `n` starts. -/
def lineToChar : List Char → Nat → Nat
  | _, 0 => 0
  | [], _ + 1 => 0
  | c :: rest, n + 1 =>
    if c = '\n' then 1 + lineToChar rest n else 1 + lineToChar rest (n + 1)

/-- `Rope::insert_char` / `Rope::insert`: insert one char immediately before the
char at offset `idx`. -/
def ropeInsert (s : List Char) (idx : Nat) (c : Char) : List Char :=
  s.take idx ++ c :: s.drop idx

/-- `Rope::remove (a..b)`: remove the chars at offsets `a ≤ i < b`. -/
def ropeRemove (s : List Char) (a b : Nat) : List Char :=
  s.take a ++ s.drop b

/-! ### Buffer queries (`app/buffer.rs`) -/

/-- Body of `Buffer::max_visible_col` as a function of the rope line it inspects
(the source inlines this on `rope.line(position.line)`): the line's length,
minus one when its last char is the terminating newline; empty line gives 0. -/
def maxVisibleColOfLine (ropeLine : List Char) : Nat :=
  if ropeLine.length = 0 then 0
  else if ropeLine.getD (ropeLine.length - 1) ' ' = '\n' then ropeLine.length - 1
  else ropeLine.length

/-- `Buffer::max_visible_col`: maximum visible column of the line at
`position.line` (only the line of `position` is consulted). -/
def maxVisibleCol (s : List Char) (position : Position) : Nat :=
  maxVisibleColOfLine (lineChars s position.line)

/-- `Buffer::clamp_col_position`: clamp a column to the visible max column. -/
def clamp_col_position (s : List Char) (position : Position) : Nat :=
  min position.col (maxVisibleCol s position)

/-- `Buffer::calculate_char_index`: global char offset of `position`, with the
column clamped to the full char length of the line (including its trailing
newline when present). -/
def calculate_char_index (s : List Char) (position : Position) : Nat :=
  lineToChar s position.line + min position.col (lineChars s position.line).length

namespace Buffer

/-- `Buffer::insert_char`: insert `char` at the computed char index and emit a
`MoveRight` follow-up. -/
def insert_char (s : List Char) (char : Char) (position : Position) :
    List Char × List AppEvent :=
  (ropeInsert s (calculate_char_index s position) char,
   [AppEvent.cursor CursorEvent.moveRight])

/-- `Buffer::merge_with_line_above`: when deleting at column 0 of line > 0,
remove the newline ending the previous line and emit cursor repositioning
events; the previous line's length is read before the removal. -/
def merge_with_line_above (s : List Char) (position : Position) :
    List Char × List AppEvent :=
  let prev_line_len := (lineChars s (position.line - 1)).length
  let char_index := calculate_char_index s { line := position.line, col := 0 }
  if 0 < char_index then
    (ropeRemove s (char_index - 1) char_index,
     [AppEvent.cursor (CursorEvent.setLinePosition (position.line - 1)),
      AppEvent.cursor
        (CursorEvent.setColPosition (if prev_line_len = 0 then 0 else prev_line_len - 1))])
  else (s, [])

/-- `Buffer::delete_char`: at column 0 of a non-first line merge with the line
above; at column > 0 remove the char immediately before the position; at (0,0)
do nothing. -/
def delete_char (s : List Char) (position : Position) : List Char × List AppEvent :=
  if position.col = 0 ∧ 0 < position.line then
    merge_with_line_above s position
  else if 0 < position.col then
    let char_index := calculate_char_index s position
    if 0 < char_index then
      (ropeRemove s (char_index - 1) char_index, [AppEvent.cursor CursorEvent.moveLeft])
    else (s, [])
  else (s, [])

/-- `Buffer::insert_new_line`: insert a `'\n'` at the computed char index and
emit `MoveDown` then `MoveToLineStart`. -/
def insert_new_line (s : List Char) (position : Position) : List Char × List AppEvent :=
  (ropeInsert s (calculate_char_index s position) '\n',
   [AppEvent.cursor CursorEvent.moveDown, AppEvent.cursor CursorEvent.moveToLineStart])

/-- `Buffer::handle_event`: dispatch a `BufferEvent` to the matching operation. -/
def handle_event (s : List Char) (event : BufferEvent) : List Char × List AppEvent :=
  match event with
  | BufferEvent.insertChar char position => insert_char s char position
  | BufferEvent.deleteChar position => delete_char s position
  | BufferEvent.insertNewline position => insert_new_line s position

end Buffer

namespace Cursor

/-- `Cursor::move_left`: step the column down by one, stopping at 0; the buffer
is never consulted. -/
def move_left (p : Position) : Position × List AppEvent :=
  (if 0 < p.col then { line := p.line, col := p.col - 1 } else p, [])

/-- `Cursor::move_right`: step the column up by one, stopping at the line's max
visible column. -/
def move_right (s : List Char) (p : Position) : Position × List AppEvent :=
  (if p.col < maxVisibleCol s p then { line := p.line, col := p.col + 1 } else p, [])

/-- `Cursor::move_up`: step the line down by one and reclamp the column against
the new line. -/
def move_up (s : List Char) (p : Position) : Position × List AppEvent :=
  if 0 < p.line then
    ({ line := p.line - 1,
       col := clamp_col_position s { line := p.line - 1, col := p.col } }, [])
  else (p, [])

/-- `Cursor::move_down`: step the line up by one while staying below
`len_lines`, reclamping the column against the new line. -/
def move_down (s : List Char) (p : Position) : Position × List AppEvent :=
  if p.line + 1 < lenLines s then
    ({ line := p.line + 1,
       col := clamp_col_position s { line := p.line + 1, col := p.col } }, [])
  else (p, [])

/-- `Cursor::move_to_line_start`: column becomes 0. -/
def move_to_line_start (p : Position) : Position × List AppEvent :=
  ({ line := p.line, col := 0 }, [])

/-- `Cursor::move_to_line_end`: column becomes the line's max visible column. -/
def move_to_line_end (s : List Char) (p : Position) : Position × List AppEvent :=
  ({ line := p.line, col := maxVisibleCol s p }, [])

/-- `Cursor::set_line_position`: clamp the requested line to `len_lines - 1`
(saturating), then reclamp the column. -/
def set_line_position (s : List Char) (line : Nat) (p : Position) :
    Position × List AppEvent :=
  ({ line := min line (lenLines s - 1),
     col := clamp_col_position s { line := min line (lenLines s - 1), col := p.col } }, [])

/-- `Cursor::set_col_position`: clamp the requested column to the current
line's max visible column. -/
def set_col_position (s : List Char) (col : Nat) (p : Position) :
    Position × List AppEvent :=
  ({ line := p.line, col := min col (maxVisibleCol s p) }, [])

/-- `Cursor::set_position`: `set_line_position` then `set_col_position`. -/
def set_position (s : List Char) (line col : Nat) (p : Position) :
    Position × List AppEvent :=
  ((set_col_position s col (set_line_position s line p).1).1, [])

/-- `Cursor::handle_event`: dispatch a `CursorEvent` to the matching movement;
the buffer is a read-only input (the source takes `&Buffer`), and every
movement returns an empty follow-up list. -/
def handle_event (event : CursorEvent) (s : List Char) (p : Position) :
    Position × List AppEvent :=
  match event with
  | CursorEvent.moveLeft => move_left p
  | CursorEvent.moveRight => move_right s p
  | CursorEvent.moveUp => move_up s p
  | CursorEvent.moveDown => move_down s p
  | CursorEvent.moveToLineStart => move_to_line_start p
  | CursorEvent.moveToLineEnd => move_to_line_end s p
  | CursorEvent.setColPosition col => set_col_position s col p
  | CursorEvent.setLinePosition line => set_line_position s line p
  | CursorEvent.setPosition line col => set_position s line col p

end Cursor

/-- A position is valid for the buffer's current shape (the spec's central
cursor invariant): its line is inside the buffer and its column does not pass
the line's max visible column. -/
abbrev validPos (s : List Char) (p : Position) : Prop :=
  p.line < lenLines s ∧ p.col ≤ maxVisibleCol s p

namespace NormalMode

/-- `NormalMode::handle_key` (`app/modes/normal.rs`): the match arms in source
order; arms on distinct chars are disjoint, so the chain is the Rust `match`. -/
def handle_key (key : KeyEvent) : List AppEvent :=
  match key.code with
  | KeyCode.char c =>
    if c = 'v' then [AppEvent.changeToMode EditorMode.visual]
    else if c = 'i' then [AppEvent.changeToMode (EditorMode.insert false)]
    else if c = 'a' then
      [AppEvent.cursor CursorEvent.moveRight,
       AppEvent.changeToMode (EditorMode.insert true)]
    else if c = 'h' then [AppEvent.cursor CursorEvent.moveLeft]
    else if c = 'l' then [AppEvent.cursor CursorEvent.moveRight]
    else if c = 'j' then [AppEvent.cursor CursorEvent.moveDown]
    else if c = 'k' then [AppEvent.cursor CursorEvent.moveUp]
    else if c = 'q' then [AppEvent.quit]
    else if (c = 'c' ∨ c = 'C') ∧ key.ctrl then [AppEvent.quit]
    else []
  | KeyCode.esc => [AppEvent.quit]
  | _ => []

end NormalMode

namespace VisualMode

/-- `VisualMode::handle_key` (`app/modes/visual.rs`): only Esc does anything;
the cursor-position parameter is ignored by the source (`_: Position`). -/
def handle_key (key : KeyEvent) (_position : Position) : List AppEvent :=
  if key.code = KeyCode.esc then [AppEvent.changeToMode EditorMode.normal] else []

end VisualMode

/-- Outcome of `File::write_to_file` (`std::io::Result<()>`); the write itself
is external I/O and is abstracted as a function of the path and the buffer. -/
inductive WriteResult where
  | ok
  | ioError (msg : String)
deriving DecidableEq

namespace File

/-- `File::save_file`: with a path, perform the write and swallow either
outcome (an error is only logged); with no path, request focus on the filename
prompt. -/
def save_file (write_to_file : PathBuf → List Char → WriteResult)
    (path : Option PathBuf) (buffer : List Char) : List AppEvent :=
  match path with
  | some p =>
    match write_to_file p buffer with
    | WriteResult.ok => []
    | WriteResult.ioError _ => []
  | none => [AppEvent.changeFocus FocusableComponent.filenamePrompt]

/-- `File::handle_event`: `Save` saves at the current path; `SaveAs` first sets
the path, then saves.  Returns (new path state, emitted events). -/
def handle_event (write_to_file : PathBuf → List Char → WriteResult)
    (path : Option PathBuf) (event : FileEvent) (buffer : List Char) :
    Option PathBuf × List AppEvent :=
  match event with
  | FileEvent.save => (path, save_file write_to_file path buffer)
  | FileEvent.saveAs p => (some p, save_file write_to_file (some p) buffer)

end File

/-! ### Equation and structure lemmas for the rope model -/

theorem countNewlines_cons (x : Char) (t : List Char) :
    countNewlines (x :: t) = (if x = '\n' then 1 else 0) + countNewlines t := by
  by_cases hx : x = '\n'
  · simp [countNewlines, List.filter_cons, hx]
    omega
  · simp [countNewlines, List.filter_cons, hx]

theorem countNewlines_append (a b : List Char) :
    countNewlines (a ++ b) = countNewlines a + countNewlines b := by
  simp [countNewlines, List.filter_append]

theorem lenLines_pos (s : List Char) : 0 < lenLines s := by
  simp [lenLines]

theorem lenLines_cons_newline (rest : List Char) :
    lenLines ('\n' :: rest) = lenLines rest + 1 := by
  simp [lenLines, countNewlines_cons]
  omega

theorem lenLines_cons_of_ne {c : Char} (rest : List Char) (hc : c ≠ '\n') :
    lenLines (c :: rest) = lenLines rest := by
  simp [lenLines, countNewlines_cons, hc]

theorem takeLine_cons_newline (t : List Char) : takeLine ('\n' :: t) = ['\n'] := by
  simp [takeLine]

theorem takeLine_cons_of_ne {c : Char} (t : List Char) (hc : c ≠ '\n') :
    takeLine (c :: t) = c :: takeLine t := by
  simp [takeLine, hc]

theorem lineChars_zero (s : List Char) : lineChars s 0 = takeLine s := by
  cases s <;> rfl

theorem lineChars_cons_succ_newline (rest : List Char) (m : Nat) :
    lineChars ('\n' :: rest) (m + 1) = lineChars rest m := by
  simp [lineChars]

theorem lineChars_cons_succ_of_ne {c : Char} (rest : List Char) (m : Nat) (hc : c ≠ '\n') :
    lineChars (c :: rest) (m + 1) = lineChars rest (m + 1) := by
  simp [lineChars, hc]

theorem lineToChar_zero (s : List Char) : lineToChar s 0 = 0 := by
  cases s <;> rfl

theorem lineToChar_cons_succ_newline (rest : List Char) (m : Nat) :
    lineToChar ('\n' :: rest) (m + 1) = 1 + lineToChar rest m := by
  simp [lineToChar]

theorem lineToChar_cons_succ_of_ne {c : Char} (rest : List Char) (m : Nat) (hc : c ≠ '\n') :
    lineToChar (c :: rest) (m + 1) = 1 + lineToChar rest (m + 1) := by
  simp [lineToChar, hc]

theorem takeLine_length_le (s : List Char) : (takeLine s).length ≤ s.length := by
  induction s with
  | nil => simp [takeLine]
  | cons c rest ih =>
    by_cases hc : c = '\n'
    · subst hc; simp [takeLine_cons_newline]
    · simp only [takeLine_cons_of_ne rest hc, List.length_cons]
      omega

theorem takeLine_length_pos (c : Char) (t : List Char) :
    0 < (takeLine (c :: t)).length := by
  by_cases hc : c = '\n'
  · subst hc; simp [takeLine_cons_newline]
  · simp [takeLine_cons_of_ne t hc]

theorem lineToChar_add_length_le (s : List Char) :
    ∀ n, lineToChar s n + (lineChars s n).length ≤ s.length := by
  induction s with
  | nil => intro n; cases n <;> simp [lineToChar, lineChars, takeLine]
  | cons c rest ih =>
    intro n
    cases n with
    | zero =>
      have h := takeLine_length_le (c :: rest)
      simp only [lineToChar_zero, lineChars_zero]
      omega
    | succ m =>
      by_cases hc : c = '\n'
      · subst hc
        have h := ih m
        simp only [lineToChar_cons_succ_newline, lineChars_cons_succ_newline,
          List.length_cons]
        omega
      · have h := ih (m + 1)
        simp only [lineToChar_cons_succ_of_ne rest m hc,
          lineChars_cons_succ_of_ne rest m hc, List.length_cons]
        omega

theorem maxVisibleColOfLine_le_length (l : List Char) :
    maxVisibleColOfLine l ≤ l.length := by
  simp only [maxVisibleColOfLine]
  split
  · omega
  · split <;> omega

theorem maxVisibleColOfLine_cons {c : Char} (t : List Char) (hc : c ≠ '\n') :
    maxVisibleColOfLine (c :: t) = maxVisibleColOfLine t + 1 := by
  cases t with
  | nil => simp [maxVisibleColOfLine, hc]
  | cons x xs =>
    by_cases h : (x :: xs)[xs.length] = '\n' <;> simp [maxVisibleColOfLine, h]

theorem takeLine_insert (c : Char) :
    ∀ (k : Nat) (s : List Char), k ≤ maxVisibleColOfLine (takeLine s) →
      takeLine (s.take k ++ c :: s.drop k) =
        (takeLine s).take k ++ c :: (if c = '\n' then [] else (takeLine s).drop k) := by
  intro k
  induction k with
  | zero =>
    intro s _
    by_cases hc : c = '\n' <;> simp [takeLine, hc]
  | succ j ih =>
    intro s hk
    cases s with
    | nil => simp [takeLine, maxVisibleColOfLine] at hk
    | cons c0 rest =>
      by_cases h0 : c0 = '\n'
      · subst h0
        simp [takeLine_cons_newline, maxVisibleColOfLine] at hk
      · rw [takeLine_cons_of_ne rest h0, maxVisibleColOfLine_cons (takeLine rest) h0] at hk
        have hk' : j ≤ maxVisibleColOfLine (takeLine rest) := by omega
        rw [List.take_succ_cons, List.drop_succ_cons, List.cons_append,
          takeLine_cons_of_ne _ h0, ih rest hk', takeLine_cons_of_ne rest h0,
          List.take_succ_cons]
        simp

theorem lineToChar_insert (c : Char) :
    ∀ (s : List Char) (n i : Nat), n < lenLines s → lineToChar s n ≤ i →
      lineToChar (s.take i ++ c :: s.drop i) n = lineToChar s n := by
  intro s
  induction s with
  | nil =>
    intro n i hn _
    have hn0 : n = 0 := by simp [lenLines, countNewlines] at hn; omega
    subst hn0
    simp [lineToChar_zero]
  | cons c0 rest ih =>
    intro n i hn hi
    cases n with
    | zero => simp [lineToChar_zero]
    | succ m =>
      by_cases h0 : c0 = '\n'
      · subst h0
        rw [lineToChar_cons_succ_newline] at hi ⊢
        obtain ⟨j, rfl⟩ : ∃ j, i = j + 1 := ⟨i - 1, by omega⟩
        rw [List.take_succ_cons, List.drop_succ_cons, List.cons_append,
          lineToChar_cons_succ_newline]
        rw [lenLines_cons_newline] at hn
        rw [ih m j (by omega) (by omega)]
      · rw [lineToChar_cons_succ_of_ne rest m h0] at hi ⊢
        obtain ⟨j, rfl⟩ : ∃ j, i = j + 1 := ⟨i - 1, by omega⟩
        rw [List.take_succ_cons, List.drop_succ_cons, List.cons_append,
          lineToChar_cons_succ_of_ne _ m h0]
        rw [lenLines_cons_of_ne rest h0] at hn
        rw [ih (m + 1) j hn (by omega)]

theorem lineChars_insert (c : Char) :
    ∀ (s : List Char) (n k : Nat), n < lenLines s →
      k ≤ maxVisibleColOfLine (lineChars s n) →
      lineChars (s.take (lineToChar s n + k) ++ c :: s.drop (lineToChar s n + k)) n =
        (lineChars s n).take k ++
          c :: (if c = '\n' then [] else (lineChars s n).drop k) := by
  intro s
  induction s with
  | nil =>
    intro n k hn hk
    have hn0 : n = 0 := by simp [lenLines, countNewlines] at hn; omega
    subst hn0
    rw [lineChars_zero] at hk
    rw [lineToChar_zero, Nat.zero_add, lineChars_zero, lineChars_zero,
      takeLine_insert c k [] hk]
  | cons c0 rest ih =>
    intro n k hn hk
    cases n with
    | zero =>
      rw [lineChars_zero] at hk
      rw [lineToChar_zero, Nat.zero_add, lineChars_zero, lineChars_zero,
        takeLine_insert c k (c0 :: rest) hk]
    | succ m =>
      by_cases h0 : c0 = '\n'
      · subst h0
        rw [lineChars_cons_succ_newline] at hk ⊢
        rw [lineToChar_cons_succ_newline]
        have harith : 1 + lineToChar rest m + k = (lineToChar rest m + k) + 1 := by omega
        rw [harith, List.take_succ_cons, List.drop_succ_cons, List.cons_append,
          lineChars_cons_succ_newline]
        rw [lenLines_cons_newline] at hn
        rw [ih m k (by omega) hk]
      · rw [lineChars_cons_succ_of_ne rest m h0] at hk ⊢
        rw [lineToChar_cons_succ_of_ne rest m h0]
        have harith :
            1 + lineToChar rest (m + 1) + k = (lineToChar rest (m + 1) + k) + 1 := by
          omega
        rw [harith, List.take_succ_cons, List.drop_succ_cons, List.cons_append,
          lineChars_cons_succ_of_ne _ m h0]
        rw [lenLines_cons_of_ne rest h0] at hn
        rw [ih (m + 1) k hn hk]

theorem lineToChar_pos_getD (s : List Char) :
    ∀ n, 0 < n → n < lenLines s →
      0 < lineToChar s n ∧ s.getD (lineToChar s n - 1) ' ' = '\n' := by
  induction s with
  | nil =>
    intro n hn hlt
    simp [lenLines, countNewlines] at hlt
    omega
  | cons c0 rest ih =>
    intro n hn hlt
    obtain ⟨m, rfl⟩ : ∃ m, n = m + 1 := ⟨n - 1, by omega⟩
    by_cases h0 : c0 = '\n'
    · subst h0
      rw [lineToChar_cons_succ_newline]
      cases m with
      | zero => simp [lineToChar_zero]
      | succ j =>
        rw [lenLines_cons_newline] at hlt
        obtain ⟨hpos, hget⟩ := ih (j + 1) (by omega) (by omega)
        refine ⟨by omega, ?_⟩
        have harith : 1 + lineToChar rest (j + 1) - 1 =
            (lineToChar rest (j + 1) - 1) + 1 := by omega
        rw [harith, List.getD_cons_succ, hget]
    · rw [lineToChar_cons_succ_of_ne rest m h0]
      rw [lenLines_cons_of_ne rest h0] at hlt
      cases m with
      | zero =>
        -- line 1 exists in `rest`-with-`c0`, so rest itself has a first newline:
        -- lineToChar rest 1 > 0 by the inner induction
        obtain ⟨hpos, hget⟩ := ih 1 (by omega) hlt
        refine ⟨by omega, ?_⟩
        have harith : 1 + lineToChar rest 1 - 1 = (lineToChar rest 1 - 1) + 1 := by
          omega
        rw [harith, List.getD_cons_succ, hget]
      | succ j =>
        obtain ⟨hpos, hget⟩ := ih (j + 2) (by omega) hlt
        refine ⟨by omega, ?_⟩
        have harith : 1 + lineToChar rest (j + 2) - 1 =
            (lineToChar rest (j + 2) - 1) + 1 := by omega
        rw [harith, List.getD_cons_succ, hget]

theorem lineChars_length_pos_of_lt (s : List Char) :
    ∀ n, n + 1 < lenLines s → 0 < (lineChars s n).length := by
  induction s with
  | nil =>
    intro n hlt
    simp [lenLines, countNewlines] at hlt
  | cons c0 rest ih =>
    intro n hlt
    cases n with
    | zero =>
      rw [lineChars_zero]
      exact takeLine_length_pos c0 rest
    | succ m =>
      by_cases h0 : c0 = '\n'
      · subst h0
        rw [lineChars_cons_succ_newline]
        rw [lenLines_cons_newline] at hlt
        exact ih m (by omega)
      · rw [lineChars_cons_succ_of_ne rest m h0]
        rw [lenLines_cons_of_ne rest h0] at hlt
        exact ih (m + 1) hlt

theorem getD_lt_length {l : List Char} {k : Nat} (h : l.getD k ' ' = '\n') :
    k < l.length := by
  by_contra hk
  rw [List.getD_eq_default _ _ (Nat.le_of_not_lt hk)] at h
  exact absurd h (by decide)

theorem countNewlines_remove (s : List Char) (k : Nat) (hk : s.getD k ' ' = '\n') :
    countNewlines (s.take k ++ s.drop (k + 1)) = countNewlines s - 1 := by
  have hlen : k < s.length := getD_lt_length hk
  have hget : s[k] = '\n' := by rw [← List.getD_eq_getElem s ' ' hlen]; exact hk
  have hs : countNewlines s =
      countNewlines (s.take k) + countNewlines (s.drop k) := by
    conv_lhs => rw [← List.take_append_drop k s]
    exact countNewlines_append _ _
  rw [List.drop_eq_getElem_cons hlen, hget, countNewlines_cons] at hs
  rw [countNewlines_append]
  simp at hs
  omega

/-! ### The claims -/

/-- C5: `Buffer::delete_char` at position (0,0) — column 0 of line 0 — is a
no-op: the buffer content is unchanged and the returned follow-up event list is
empty, so the `DeleteChar` event either fully applies or leaves the state
unchanged. -/
theorem delete_char_at_origin_is_noop (s : List Char) :
    Buffer.delete_char s { line := 0, col := 0 } = (s, []) := by
  simp [Buffer.delete_char]

/-- C8: `Cursor::handle_event` returns the empty list of follow-up events for
every cursor event, buffer, and starting position; the buffer is passed as a
read-only input (the source takes `&Buffer`), so it is never mutated — in this
embedding the buffer is not even part of the output state. -/
theorem cursor_handle_event_no_followups
    (e : CursorEvent) (s : List Char) (p : Position) :
    (Cursor.handle_event e s p).2 = [] := by
  cases e <;>
    simp only [Cursor.handle_event, Cursor.move_left, Cursor.move_right,
      Cursor.move_up, Cursor.move_down, Cursor.move_to_line_start,
      Cursor.move_to_line_end, Cursor.set_col_position, Cursor.set_line_position,
      Cursor.set_position] <;>
    first
    | rfl
    | (split <;> rfl)

/-- C6: in Normal mode, key `a` yields exactly
`[CursorEvent::MoveRight, ChangeToMode(Insert{append:true})]` in that order and
key `i` yields exactly `[ChangeToMode(Insert{append:false})]`, for any state of
the CONTROL modifier; the two entered Insert modes are distinguished by the
`append` flag. -/
theorem normal_mode_a_and_i_enter_insert_with_append_flag (ctrl : Bool) :
    NormalMode.handle_key { code := KeyCode.char 'a', ctrl := ctrl } =
      [AppEvent.cursor CursorEvent.moveRight,
       AppEvent.changeToMode (EditorMode.insert true)] ∧
    NormalMode.handle_key { code := KeyCode.char 'i', ctrl := ctrl } =
      [AppEvent.changeToMode (EditorMode.insert false)] ∧
    EditorMode.insert true ≠ EditorMode.insert false := by
  cases ctrl <;> exact ⟨by decide, by decide, by decide⟩

/-- C7: in Visual mode, Esc yields exactly `[ChangeToMode(Normal)]` and every
other key yields the empty event list, for any cursor position (which the
handler ignores). -/
theorem visual_mode_esc_to_normal_otherwise_noop (key : KeyEvent) (pos : Position) :
    (key.code = KeyCode.esc →
      VisualMode.handle_key key pos = [AppEvent.changeToMode EditorMode.normal]) ∧
    (key.code ≠ KeyCode.esc → VisualMode.handle_key key pos = []) := by
  constructor
  · intro h
    simp [VisualMode.handle_key, h]
  · intro h
    simp [VisualMode.handle_key, h]

/-- C7 witness: a concrete non-Esc key in Visual mode produces no events. -/
theorem visual_mode_non_esc_noop_witness :
    VisualMode.handle_key { code := KeyCode.char 'x', ctrl := false }
      { line := 0, col := 0 } = [] :=
  (visual_mode_esc_to_normal_otherwise_noop
    { code := KeyCode.char 'x', ctrl := false } { line := 0, col := 0 }).2 (by decide)

/-- C9: `File::handle_event` — with no path, `Save` emits exactly
`[ChangeFocus(FilenamePrompt)]` and leaves the path unchanged; with a path,
`Save` emits nothing whether the underlying write succeeds or fails (the
outcome of the abstracted I/O collaborator `write_to_file` is swallowed);
`SaveAs(q)` first sets the path to `Some(q)` and then behaves exactly like
`Save` in that state. -/
theorem file_handle_event_save_semantics
    (write_to_file : PathBuf → List Char → WriteResult) (buffer : List Char) :
    (∀ (path : Option PathBuf) (q : PathBuf),
      File.handle_event write_to_file path (FileEvent.saveAs q) buffer =
        File.handle_event write_to_file (some q) FileEvent.save buffer) ∧
    File.handle_event write_to_file none FileEvent.save buffer =
      (none, [AppEvent.changeFocus FocusableComponent.filenamePrompt]) ∧
    (∀ p : PathBuf,
      File.handle_event write_to_file (some p) FileEvent.save buffer = (some p, [])) := by
  refine ⟨fun path q => rfl, rfl, fun p => ?_⟩
  simp only [File.handle_event, File.save_file]
  cases write_to_file p buffer <;> rfl

/-- C10: in Normal mode, `h`/`l`/`j`/`k` produce exactly the singleton lists
`[MoveLeft]`/`[MoveRight]`/`[MoveDown]`/`[MoveUp]` (for any modifier state),
and every key outside the set {v, i, a, h, l, j, k, q, Esc, Ctrl-c/Ctrl-C}
produces the empty event list. -/
theorem normal_mode_movement_keys_and_fallthrough :
    (∀ ctrl : Bool,
      NormalMode.handle_key { code := KeyCode.char 'h', ctrl := ctrl } =
        [AppEvent.cursor CursorEvent.moveLeft] ∧
      NormalMode.handle_key { code := KeyCode.char 'l', ctrl := ctrl } =
        [AppEvent.cursor CursorEvent.moveRight] ∧
      NormalMode.handle_key { code := KeyCode.char 'j', ctrl := ctrl } =
        [AppEvent.cursor CursorEvent.moveDown] ∧
      NormalMode.handle_key { code := KeyCode.char 'k', ctrl := ctrl } =
        [AppEvent.cursor CursorEvent.moveUp]) ∧
    (∀ key : KeyEvent,
      key.code ≠ KeyCode.char 'v' → key.code ≠ KeyCode.char 'i' →
      key.code ≠ KeyCode.char 'a' → key.code ≠ KeyCode.char 'h' →
      key.code ≠ KeyCode.char 'l' → key.code ≠ KeyCode.char 'j' →
      key.code ≠ KeyCode.char 'k' → key.code ≠ KeyCode.char 'q' →
      key.code ≠ KeyCode.esc →
      ¬((key.code = KeyCode.char 'c' ∨ key.code = KeyCode.char 'C') ∧
          key.ctrl = true) →
      NormalMode.handle_key key = []) := by
  constructor
  · intro ctrl
    cases ctrl <;> exact ⟨by decide, by decide, by decide, by decide⟩
  · intro key hv hi ha hh hl hj hk hq hesc hc
    obtain ⟨code, ctrl⟩ := key
    cases code with
    | char c =>
      simp only [ne_eq, KeyCode.char.injEq] at hv hi ha hh hl hj hk hq
      cases ctrl with
      | false => simp [NormalMode.handle_key, hv, hi, ha, hh, hl, hj, hk, hq]
      | true =>
        simp only [KeyCode.char.injEq, and_true, not_or] at hc
        simp [NormalMode.handle_key, hv, hi, ha, hh, hl, hj, hk, hq, hc.1, hc.2]
    | esc => exact absurd rfl hesc
    | left => rfl
    | right => rfl
    | up => rfl
    | down => rfl
    | backspace => rfl
    | enter => rfl
    | other => rfl

/-- C10 witness: a concrete key outside the handled set — `z` with CONTROL held
— produces no events. -/
theorem normal_mode_fallthrough_witness :
    NormalMode.handle_key { code := KeyCode.char 'z', ctrl := true } = [] :=
  normal_mode_movement_keys_and_fallthrough.2
    { code := KeyCode.char 'z', ctrl := true }
    (by decide) (by decide) (by decide) (by decide) (by decide) (by decide)
    (by decide) (by decide) (by decide) (by decide)

/-- C1 counterexample: the claim quantifies over every starting position,
including stale ones.  On buffer "a" with the stale starting position (0,5)
(max visible column is 1), `MoveLeft` completes — it never consults the buffer
— yet leaves the cursor at column 4, which is still invalid for the buffer's
current shape.  So a single cursor operation from a stale position need not
re-establish validity. -/
theorem moveLeft_stale_position_stays_invalid :
    ¬ validPos "a".data
        (Cursor.handle_event CursorEvent.moveLeft "a".data { line := 0, col := 5 }).1 := by
  decide

/-- C1 (amended): for every buffer and every starting position that is valid
for the buffer's current shape (`line < len_lines` and
`col ≤ max_visible_col`), after any single cursor operation dispatched through
`Cursor::handle_event` the position is again valid for the buffer.  (The
original claim extended this to stale starting positions, which the
counterexample refutes: `move_left` does not consult the buffer, and the
buffer-consulting movements re-validate only the coordinate they touch.) -/
theorem cursor_handle_event_preserves_valid_position
    (e : CursorEvent) (s : List Char) (p : Position) (h : validPos s p) :
    validPos s (Cursor.handle_event e s p).1 := by
  obtain ⟨hline, hcol⟩ := h
  have hlen : 0 < lenLines s := lenLines_pos s
  cases e with
  | moveLeft =>
    simp only [Cursor.handle_event, Cursor.move_left]
    split
    · exact ⟨hline, Nat.le_trans (Nat.sub_le _ _) hcol⟩
    · exact ⟨hline, hcol⟩
  | moveRight =>
    simp only [Cursor.handle_event, Cursor.move_right]
    split
    · next hlt => exact ⟨hline, hlt⟩
    · exact ⟨hline, hcol⟩
  | moveUp =>
    simp only [Cursor.handle_event, Cursor.move_up]
    split
    · refine ⟨?_, Nat.min_le_right _ _⟩
      show p.line - 1 < lenLines s
      omega
    · exact ⟨hline, hcol⟩
  | moveDown =>
    simp only [Cursor.handle_event, Cursor.move_down]
    split
    · next hlt => exact ⟨hlt, Nat.min_le_right _ _⟩
    · exact ⟨hline, hcol⟩
  | moveToLineStart =>
    exact ⟨hline, Nat.zero_le _⟩
  | moveToLineEnd =>
    exact ⟨hline, Nat.le_refl _⟩
  | setPosition line col =>
    refine ⟨?_, Nat.min_le_right _ _⟩
    show min line (lenLines s - 1) < lenLines s
    omega
  | setLinePosition line =>
    refine ⟨?_, Nat.min_le_right _ _⟩
    show min line (lenLines s - 1) < lenLines s
    omega
  | setColPosition col =>
    exact ⟨hline, Nat.min_le_right _ _⟩

/-- C1 witness: on buffer "a\nb" the valid position (0,1) stays valid after a
`MoveDown`. -/
theorem cursor_valid_position_witness :
    validPos "a\nb".data { line := 0, col := 1 } ∧
    validPos "a\nb".data
      (Cursor.handle_event CursorEvent.moveDown "a\nb".data { line := 0, col := 1 }).1 :=
  ⟨by decide,
   cursor_handle_event_preserves_valid_position CursorEvent.moveDown "a\nb".data
     { line := 0, col := 1 } (by decide)⟩

/-- C2: deleting at column 0 of a line ℓ with 0 < ℓ < len_lines removes exactly
one char — the `'\n'` immediately before line ℓ's start, i.e. the newline
joining it to the previous line — leaving all other text unchanged (take/drop
form) and decreasing the line count by one; the emitted follow-ups are exactly
`[SetLinePosition (ℓ-1), SetColPosition (prev_line_len - 1)]`, where
`prev_line_len` is the previous line's char length *including* its terminating
newline (the reading pinned by the claim's own scenario: previous line "Hello"
has `prev_line_len = 6` and the cursor lands at column 5; an empty previous
line has `prev_line_len = 1` and the cursor lands at column 0). -/
theorem delete_char_at_line_start_merges_with_previous_line
    (s : List Char) (p : Position) (hc : p.col = 0) (hl : 0 < p.line)
    (hlt : p.line < lenLines s) :
    Buffer.delete_char s p =
      (s.take (lineToChar s p.line - 1) ++ s.drop (lineToChar s p.line),
       [AppEvent.cursor (CursorEvent.setLinePosition (p.line - 1)),
        AppEvent.cursor
          (CursorEvent.setColPosition ((lineChars s (p.line - 1)).length - 1))]) ∧
    s.getD (lineToChar s p.line - 1) ' ' = '\n' ∧
    0 < (lineChars s (p.line - 1)).length ∧
    lenLines (s.take (lineToChar s p.line - 1) ++ s.drop (lineToChar s p.line)) =
      lenLines s - 1 := by
  obtain ⟨hpos, hnl⟩ := lineToChar_pos_getD s p.line hl hlt
  have hprev : 0 < (lineChars s (p.line - 1)).length := by
    have hstep : (p.line - 1) + 1 < lenLines s := by omega
    exact lineChars_length_pos_of_lt s (p.line - 1) hstep
  refine ⟨?_, hnl, hprev, ?_⟩
  · simp only [Buffer.delete_char, Buffer.merge_with_line_above, calculate_char_index]
    rw [if_pos ⟨hc, hl⟩]
    simp only [Nat.zero_min, Nat.add_zero]
    rw [if_pos hpos]
    have hcolpos : (if (lineChars s (p.line - 1)).length = 0 then 0
        else (lineChars s (p.line - 1)).length - 1) =
          (lineChars s (p.line - 1)).length - 1 := by
      split <;> omega
    rw [hcolpos]
    rfl
  · have hk := countNewlines_remove s (lineToChar s p.line - 1) hnl
    have harith : lineToChar s p.line - 1 + 1 = lineToChar s p.line := by omega
    rw [harith] at hk
    have hcn : 0 < countNewlines s := by
      have : p.line < countNewlines s + 1 := hlt
      omega
    simp only [lenLines, hk]
    omega

/-- C2 witness: the claim's concrete scenario — on "Hello\nWorld", deleting at
(1,0) yields "HelloWorld" with follow-ups
`[SetLinePosition 0, SetColPosition 5]`. -/
theorem delete_char_merge_hello_world_witness :
    Buffer.delete_char "Hello\nWorld".data { line := 1, col := 0 } =
      ("HelloWorld".data,
       [AppEvent.cursor (CursorEvent.setLinePosition 0),
        AppEvent.cursor (CursorEvent.setColPosition 5)]) := by
  have h := delete_char_at_line_start_merges_with_previous_line
    "Hello\nWorld".data { line := 1, col := 0 } rfl (by decide) (by decide)
  exact h.1.trans (by decide)

/-- C4 counterexample: `calculate_char_index` clamps the column to the line's
char length *including* its terminating newline, so on "ab\ncd" (line 0 is
"ab\n", char length 3) inserting 'x' at (0,100) clamps to offset 3 — one past
the newline — and the char lands at the start of the following line: the
result is "ab\nxcd", not the same-line clamping "abx\ncd" the claim describes;
line 0 of the result is unchanged and 'x' begins line 1. -/
theorem insert_char_overlong_col_lands_on_next_line :
    (Buffer.insert_char "ab\ncd".data 'x' { line := 0, col := 100 }).1 ≠
        "abx\ncd".data ∧
    (Buffer.insert_char "ab\ncd".data 'x' { line := 0, col := 100 }).1 =
        "ab\nxcd".data ∧
    lineChars (Buffer.insert_char "ab\ncd".data 'x' { line := 0, col := 100 }).1 0 =
        "ab\n".data ∧
    lineChars (Buffer.insert_char "ab\ncd".data 'x' { line := 0, col := 100 }).1 1 =
        "xcd".data := by
  exact ⟨by decide, by decide, by decide, by decide⟩

/-- C4 (amended): for every buffer, char and position with an in-range line,
`Buffer::insert_char` has no error path and inserts exactly one scalar, at the
global offset obtained by clamping the column to the line's char length
*including* any terminating newline (so an over-long column on a
newline-terminated line places the char at the start of the following line —
the part of the original claim the counterexample refutes); the follow-up is
exactly `[MoveRight]`; and whenever the column does not exceed the line's max
visible column, the scalar lands on that same line, immediately before the
char previously at that column. -/
theorem insert_char_inserts_one_scalar_clamped
    (s : List Char) (c : Char) (p : Position) (h : p.line < lenLines s) :
    (Buffer.insert_char s c p).2 = [AppEvent.cursor CursorEvent.moveRight] ∧
    (Buffer.insert_char s c p).1 =
      s.take (lineToChar s p.line + min p.col (lineChars s p.line).length) ++
        c :: s.drop (lineToChar s p.line + min p.col (lineChars s p.line).length) ∧
    (Buffer.insert_char s c p).1.length = s.length + 1 ∧
    (p.col ≤ maxVisibleCol s p →
      lineChars (Buffer.insert_char s c p).1 p.line =
        (lineChars s p.line).take p.col ++
          c :: (if c = '\n' then [] else (lineChars s p.line).drop p.col)) := by
  refine ⟨rfl, rfl, ?_, ?_⟩
  · simp only [Buffer.insert_char, ropeInsert, List.length_append, List.length_cons,
      List.length_take, List.length_drop]
    omega
  · intro hcol
    have hcol' : p.col ≤ maxVisibleColOfLine (lineChars s p.line) := hcol
    have hmin : min p.col (lineChars s p.line).length = p.col :=
      Nat.min_eq_left (Nat.le_trans hcol' (maxVisibleColOfLine_le_length _))
    show lineChars (ropeInsert s (calculate_char_index s p) c) p.line = _
    simp only [ropeInsert, calculate_char_index, hmin]
    exact lineChars_insert c s p.line p.col h hcol'

/-- C4 witness: the claim's concrete scenario — inserting 'x' at (0,0) of
"Hello, Zack!" yields "xHello, Zack!" and exactly the follow-up
`[CursorEvent::MoveRight]`. -/
theorem insert_char_hello_zack_witness :
    (Buffer.insert_char "Hello, Zack!".data 'x' { line := 0, col := 0 }).1 =
        "xHello, Zack!".data ∧
    (Buffer.insert_char "Hello, Zack!".data 'x' { line := 0, col := 0 }).2 =
        [AppEvent.cursor CursorEvent.moveRight] := by
  have h := insert_char_inserts_one_scalar_clamped "Hello, Zack!".data 'x'
    { line := 0, col := 0 } (by decide)
  exact ⟨h.2.1.trans (by decide), h.1⟩

/-- C3 counterexample: insert-then-delete at the *same* position does not
restore the buffer — `delete_char` removes the char *before* its position (or
is a no-op at (0,0)), never the char the insertion just placed *at* that
position.  Concretely on "abc": insert 'x' at (0,0) gives "xabc", and deleting
at (0,0) is a no-op, leaving "xabc" ≠ "abc". -/
theorem insert_then_delete_same_position_not_round_trip :
    (Buffer.delete_char (Buffer.insert_char "abc".data 'x' { line := 0, col := 0 }).1
        { line := 0, col := 0 }).1 ≠ "abc".data := by
  decide

/-- C3 (amended): for every buffer, char `c`, and position `p` valid for the
buffer (`p.line < len_lines` and `p.col ≤ max_visible_col`), applying
`insert_char(c, p)` and then `delete_char` at `(p.line, p.col + 1)` — the
position immediately after the inserted scalar, which is where the cursor sits
after the emitted `MoveRight` — restores the original buffer content
byte-for-byte.  (The counterexample refutes deletion at the same position `p`;
the validity hypothesis is also forced: from a stale over-long column the
clamped insertion can wrap to the next line and the deletion then removes a
different char.) -/
theorem insert_then_delete_next_col_round_trip
    (s : List Char) (c : Char) (p : Position)
    (hline : p.line < lenLines s) (hcol : p.col ≤ maxVisibleCol s p) :
    (Buffer.delete_char (Buffer.insert_char s c p).1
        { line := p.line, col := p.col + 1 }).1 = s := by
  have hcol' : p.col ≤ maxVisibleColOfLine (lineChars s p.line) := hcol
  have hlineLen : p.col ≤ (lineChars s p.line).length :=
    Nat.le_trans hcol' (maxVisibleColOfLine_le_length _)
  have hmin : min p.col (lineChars s p.line).length = p.col := Nat.min_eq_left hlineLen
  have hins : (Buffer.insert_char s c p).1 =
      s.take (lineToChar s p.line + p.col) ++ c ::
        s.drop (lineToChar s p.line + p.col) := by
    simp only [Buffer.insert_char, ropeInsert, calculate_char_index, hmin]
  have hidxle : lineToChar s p.line + p.col ≤ s.length := by
    have := lineToChar_add_length_le s p.line
    omega
  have hlineNew := lineChars_insert c s p.line p.col hline hcol'
  have hlen : p.col + 1 ≤
      (lineChars (s.take (lineToChar s p.line + p.col) ++ c ::
        s.drop (lineToChar s p.line + p.col)) p.line).length := by
    rw [hlineNew]
    have htk : ((lineChars s p.line).take p.col).length = p.col := by
      rw [List.length_take]
      omega
    simp only [List.length_append, List.length_cons, htk]
    omega
  have hstart : lineToChar (s.take (lineToChar s p.line + p.col) ++ c ::
      s.drop (lineToChar s p.line + p.col)) p.line = lineToChar s p.line :=
    lineToChar_insert c s p.line (lineToChar s p.line + p.col) hline (by omega)
  have hci : calculate_char_index
      (s.take (lineToChar s p.line + p.col) ++ c ::
        s.drop (lineToChar s p.line + p.col))
      { line := p.line, col := p.col + 1 } = lineToChar s p.line + p.col + 1 := by
    simp only [calculate_char_index]
    rw [hstart]
    rw [Nat.min_eq_left hlen]
    omega
  have htake : (s.take (lineToChar s p.line + p.col) ++ c ::
      s.drop (lineToChar s p.line + p.col)).take (lineToChar s p.line + p.col) =
        s.take (lineToChar s p.line + p.col) := by
    refine List.take_left' ?_
    rw [List.length_take]
    omega
  have hdrop : (s.take (lineToChar s p.line + p.col) ++ c ::
      s.drop (lineToChar s p.line + p.col)).drop (lineToChar s p.line + p.col + 1) =
        s.drop (lineToChar s p.line + p.col) := by
    rw [List.append_cons]
    refine List.drop_left' ?_
    rw [List.length_append, List.length_take]
    simp
    omega
  rw [hins]
  simp only [Buffer.delete_char, hci]
  rw [if_neg (by simp), if_pos (Nat.succ_pos p.col),
    if_pos (Nat.succ_pos (lineToChar s p.line + p.col))]
  simp only [ropeRemove, Nat.add_sub_cancel]
  rw [htake, hdrop, List.take_append_drop]

/-- C3 witness: on "abc", insert 'x' at the valid position (0,1) and delete at
(0,2): the buffer returns to "abc". -/
theorem insert_then_delete_round_trip_witness :
    (Buffer.delete_char (Buffer.insert_char "abc".data 'x' { line := 0, col := 1 }).1
        { line := 0, col := 2 }).1 = "abc".data :=
  insert_then_delete_next_col_round_trip "abc".data 'x' { line := 0, col := 1 }
    (by decide) (by decide)

end Zack
